import Mathlib

/-!
Shallow embedding of the `keywords` crate (`src/lib.rs`): an ASCII keyword
tokenizer and a `KeywordMap` container supporting exact-key lookup and
partial ("prefix") lookup over tokens of the stored keys.

Strings are modelled as lists of bytes (`List Nat`), matching the byte-level
operations of the source (`&[u8]` iteration, `str::starts_with` as byte-prefix
comparison).  The `HashMap<K, usize>` of the source is modelled as an
association list without duplicate keys (lookup finds the first entry);
the `Vec<V>` value store and the `Vec<(String, usize)>` keyword index are
plain lists.  `Vec::remove(i)` is `List.eraseIdx`; slice indexing `data[i]`
is modelled with `l[i]?` (the source only indexes at positions that the
container invariant keeps in bounds, which is proved below).
-/

/-- `u8::is_ascii_alphabetic` from the Rust standard library. -/
def isAsciiAlphabetic (b : Nat) : Bool :=
  (65 ≤ b && b ≤ 90) || (97 ≤ b && b ≤ 122)

/-- `u8::is_ascii_digit` from the Rust standard library. -/
def isAsciiDigit (b : Nat) : Bool :=
  48 ≤ b && b ≤ 57

/-- `u8::is_ascii_alphanumeric` from the Rust standard library. -/
def isAsciiAlphanumeric (b : Nat) : Bool :=
  isAsciiAlphabetic b || isAsciiDigit b

/-- One step of `AsciiKeywords::next` (src/lib.rs lines 24-52), acting on the
still-unconsumed suffix of the byte string.  Returns `none` when iteration
stops (end of input, or the empty-keyword early return), and otherwise the
produced token together with the remaining suffix after the trailing
skip of non-alphanumeric bytes. -/
def asciiKeywordsStep (s : List Nat) : Option (List Nat × List Nat) :=
  match s with
  | [] => none
  | b :: rest =>
    if isAsciiAlphabetic b then
      some ((b :: rest).takeWhile isAsciiAlphabetic,
        ((b :: rest).dropWhile isAsciiAlphabetic).dropWhile
          (fun c => !isAsciiAlphanumeric c))
    else if isAsciiDigit b then
      some ((b :: rest).takeWhile isAsciiDigit,
        ((b :: rest).dropWhile isAsciiDigit).dropWhile
          (fun c => !isAsciiAlphanumeric c))
    else
      -- neither run is consumed, the keyword `s[start..start]` is empty and
      -- `next` returns `None`, ending iteration
      none

/-- Fuel-indexed driver of the iterator.  Each produced token consumes at
least one byte, so `s.length` fuel always suffices (see `asciiKeywords`). -/
def asciiKeywordsAux : Nat → List Nat → List (List Nat)
  | 0, _ => []
  | fuel + 1, s =>
    match asciiKeywordsStep s with
    | none => []
    | some (tok, rest) => tok :: asciiKeywordsAux fuel rest

/-- The full token sequence produced by `AsciiKeywords::new(s)` followed by
repeated `next` calls (`ascii_keywords` of the `Keywords` trait). -/
def asciiKeywords (s : List Nat) : List (List Nat) :=
  asciiKeywordsAux s.length s

/-- `Match<V>` (src/lib.rs lines 92-96). -/
inductive Match (V : Type) where
  | Exact (v : V)
  | Pref (v : V)
deriving DecidableEq

/-- `Match::into_inner`. -/
def Match.into_inner : Match V → V
  | .Exact v => v
  | .Pref v => v

/-- `HashMap::get(key).copied()` on the association-list model: the position
of the first entry with the given key, if any. -/
def hmGet (m : List (List Nat × Nat)) (k : List Nat) : Option Nat :=
  (m.find? (fun p => p.1 == k)).map (fun p => p.2)

/-- `HashMap::insert(key, v)`: overwrite the entry for an equal key if one is
present, otherwise add a new entry. -/
def hmInsert (m : List (List Nat × Nat)) (k : List Nat) (v : Nat) :
    List (List Nat × Nat) :=
  if m.any (fun p => p.1 == k) then
    m.map (fun p => if p.1 == k then (k, v) else p)
  else
    m ++ [(k, v)]

/-- `HashMap::remove(key)` restricted to the resulting map (the returned
value is `hmGet`). -/
def hmErase (m : List (List Nat × Nat)) (k : List Nat) :
    List (List Nat × Nat) :=
  m.filter (fun p => p.1 != k)

/-- `KeywordMap<K, V>` (src/lib.rs lines 138-146) with byte-string keys. -/
structure KeywordMap (V : Type) where
  data : List V
  keys : List (List Nat × Nat)
  keyword_index : List (List Nat × Nat)
deriving DecidableEq

/-- `KeywordMap::new`. -/
def KeywordMap.new : KeywordMap V :=
  ⟨[], [], []⟩

/-- `KeywordMap::insert` (src/lib.rs lines 162-170). -/
def KeywordMap.insert (m : KeywordMap V) (key : List Nat) (value : V) :
    KeywordMap V :=
  let index := m.data.length
  { data := m.data ++ [value]
    keys := hmInsert m.keys key index
    keyword_index :=
      m.keyword_index ++ (asciiKeywords key).map (fun kw => (kw, index)) }

/-- `KeywordMap::remove` (src/lib.rs lines 173-199): the returned value
(`none` when the key is absent) together with the updated container. -/
def KeywordMap.remove (m : KeywordMap V) (key : List Nat) :
    Option V × KeywordMap V :=
  match hmGet m.keys key with
  | none => (none, m)
  | some index =>
    let keys0 := hmErase m.keys key
    let value := m.data[index]?
    let data' := m.data.eraseIdx index
    let ki0 := m.keyword_index.filter (fun p => p.2 != index)
    let ki1 := ki0.map (fun p => if p.2 > index then (p.1, p.2 - 1) else p)
    let keys1 := keys0.map (fun p => if p.2 > index then (p.1, p.2 - 1) else p)
    (value, ⟨data', keys1, ki1⟩)

/-- `KeywordMap::get` (src/lib.rs lines 202-210). -/
def KeywordMap.get (m : KeywordMap V) (key : List Nat) : Option V :=
  (hmGet m.keys key).bind (fun index => m.data[index]?)

/-- `KeywordMap::find_by_partial_keyword` (src/lib.rs lines 228-253), the
lazy iterator materialised as a list.  Value-store indexing `&self.data[i]`
is modelled as `m.data[i]?`. -/
def KeywordMap.find_by_partial_keyword (m : KeywordMap V) (keyword : List Nat) :
    List (Match (Option V)) :=
  let exact_match := hmGet m.keys keyword
  let iter :=
    ((m.keyword_index.filter (fun p => List.isPrefixOf keyword p.1)).filterMap
      (fun p =>
        match exact_match with
        | some exact_match_index =>
          if p.2 = exact_match_index then none else some p.2
        | none => some p.2)).map
      (fun index => Match.Pref (m.data[index]?))
  (exact_match.toList.map (fun index => Match.Exact (m.data[index]?))) ++ iter

/-- An operation on the container, for stating properties of arbitrary
interleaved `insert`/`remove` sequences. -/
inductive Op (V : Type) where
  | ins (k : List Nat) (v : V)
  | rem (k : List Nat)

/-- Run a sequence of operations on a container. -/
def execOps (m : KeywordMap V) : List (Op V) → KeywordMap V
  | [] => m
  | .ins k v :: ops => execOps (m.insert k v) ops
  | .rem k :: ops => execOps (m.remove k).2 ops

/-- `true` when every insert in the sequence is performed with a key that is
not present in the container at that moment (keys are "distinct"). -/
def goodRun (m : KeywordMap V) : List (Op V) → Bool
  | [] => true
  | .ins k v :: ops => (hmGet m.keys k).isNone && goodRun (m.insert k v) ops
  | .rem k :: ops => goodRun (m.remove k).2 ops

/-- Insert a list of key-value pairs in order. -/
def insertAll (m : KeywordMap V) (ps : List (List Nat × V)) : KeywordMap V :=
  ps.foldl (fun acc p => acc.insert p.1 p.2) m

/-- The container invariant: every recorded position is a valid value-store
index, the exact-key index has no duplicate keys, and distinct keys map to
distinct positions. -/
def KeywordMap.Inv (m : KeywordMap V) : Prop :=
  (∀ p ∈ m.keys, p.2 < m.data.length) ∧
  (∀ p ∈ m.keyword_index, p.2 < m.data.length) ∧
  (m.keys.map Prod.fst).Nodup ∧
  (m.keys.map Prod.snd).Nodup

/-- The result sequence of `find_by_partial_keyword` as the specification
words it: first, when the query is itself a stored key, one `Exact` match
for its value; then, scanning the keyword index in insertion order, one
`Prefix` match per (token, position) pair whose token byte-starts-with the
query, suppressing every pair whose position equals the exact match's
position. -/
def KeywordMap.findSpec (m : KeywordMap V) (q : List Nat) :
    List (Match (Option V)) :=
  match hmGet m.keys q with
  | some pos =>
    Match.Exact (m.data[pos]?) ::
      m.keyword_index.filterMap (fun p =>
        if List.isPrefixOf q p.1 && p.2 != pos then
          some (Match.Pref (m.data[p.2]?))
        else none)
  | none =>
    m.keyword_index.filterMap (fun p =>
      if List.isPrefixOf q p.1 then some (Match.Pref (m.data[p.2]?)) else none)

/-- C1: for every container state and every query, `find_by_partial_keyword`
produces exactly the sequence the specification describes: one `Exact` match
for the query's value first when the query equals a stored key, then one
`Prefix` match per keyword-index pair whose token byte-starts-with the query,
in keyword-index insertion order, suppressing pairs at the exact match's
position; duplicate matching tokens yield duplicate `Prefix` emissions. -/
theorem find_by_partial_keyword_eq_findSpec (m : KeywordMap V) (q : List Nat) :
    m.find_by_partial_keyword q = m.findSpec q := by
  unfold KeywordMap.find_by_partial_keyword KeywordMap.findSpec
  cases h : hmGet m.keys q with
  | none =>
    simp only [Option.toList_none, List.map_nil, List.nil_append]
    induction m.keyword_index with
    | nil => simp
    | cons p ki ih =>
      by_cases hp : q <+: p.1 <;>
        simp [List.filter_cons, List.filterMap_cons, hp, ih]
  | some pos =>
    simp only [Option.toList_some, List.map_cons, List.map_nil,
      List.singleton_append, List.cons.injEq, true_and]
    induction m.keyword_index with
    | nil => simp
    | cons p ki ih =>
      by_cases hp : q <+: p.1
      · by_cases he : p.2 = pos <;>
          simp [List.filter_cons, List.filterMap_cons, hp, he, ih]
      · simp [List.filter_cons, List.filterMap_cons, hp, ih]

/-- C2: at a non-alphanumeric byte the tokenizer is claimed to advance past
that byte and retry, so leading separator bytes never end tokenization early.
The code does not do this: when the cursor rests on a non-alphanumeric byte
(which happens exactly when the input starts with one), the extracted keyword
is empty and `next` returns `None`, ending iteration.  Concretely, the bytes
of `"_hello"` tokenize to the empty sequence although the bytes of `"hello"`
alone tokenize to `["hello"]`. -/
theorem asciiKeywords_leading_separator_stops :
    asciiKeywords [95, 104, 101, 108, 108, 111] = [] ∧
    asciiKeywords [104, 101, 108, 108, 111] = [[104, 101, 108, 108, 111]] := by
  decide

/-- C9: tokenizing the bytes of `"hello_world, testing123!"` produces
exactly the byte strings of `"hello"`, `"world"`, `"testing"`, `"123"`,
in that order. -/
theorem asciiKeywords_hello_world_testing123 :
    asciiKeywords
      [104, 101, 108, 108, 111, 95, 119, 111, 114, 108, 100, 44, 32,
       116, 101, 115, 116, 105, 110, 103, 49, 50, 51, 33] =
      [[104, 101, 108, 108, 111], [119, 111, 114, 108, 100],
       [116, 101, 115, 116, 105, 110, 103], [49, 50, 51]] := by
  decide

/-- C7: `remove` on a key absent from the exact-key index returns the absent
indicator and leaves the whole container state unchanged. -/
theorem remove_absent_key_noop (m : KeywordMap V) (k : List Nat)
    (h : hmGet m.keys k = none) : m.remove k = (none, m) := by
  unfold KeywordMap.remove
  rw [h]

/-- Witness for C7 at a concrete container and key. -/
theorem remove_absent_key_noop_witness :
    hmGet (KeywordMap.new.insert [97] (1 : Nat)).keys [98] = none ∧
    (KeywordMap.new.insert [97] (1 : Nat)).remove [98] =
      (none, KeywordMap.new.insert [97] (1 : Nat)) :=
  ⟨by decide, remove_absent_key_noop _ _ (by decide)⟩

/-- A successful exact-key lookup returns the position of an entry of the
index. -/
theorem hmGet_mem {m : List (List Nat × Nat)} {k : List Nat} {i : Nat}
    (h : hmGet m k = some i) : (k, i) ∈ m := by
  unfold hmGet at h
  cases hf : m.find? (fun p => p.1 == k) with
  | none => rw [hf] at h; simp at h
  | some q =>
    rw [hf] at h
    simp at h
    have hq := List.find?_some hf
    have hm : q ∈ m := List.mem_of_find?_eq_some hf
    have h1 : q.1 = k := by simpa using hq
    have : q = (k, i) := by cases q; simp_all
    exact this ▸ hm

/-- A failed exact-key lookup means no entry of the index has this key. -/
theorem hmGet_eq_none_iff {m : List (List Nat × Nat)} {k : List Nat} :
    hmGet m k = none ↔ ∀ p ∈ m, p.1 ≠ k := by
  unfold hmGet
  simp [List.find?_eq_none]

/-- `insert` preserves the container invariant (no assumption on whether the
key is already present). -/
theorem KeywordMap.inv_insert (m : KeywordMap V) (k : List Nat) (v : V)
    (h : m.Inv) : (m.insert k v).Inv := by
  obtain ⟨hkb, hib, hnf, hns⟩ := h
  have hknd : m.keys.Nodup := List.Nodup.of_map _ hnf
  unfold KeywordMap.Inv KeywordMap.insert
  simp only [List.length_append, List.length_singleton]
  refine ⟨?_, ?_, ?_, ?_⟩
  · intro p hp
    unfold hmInsert at hp
    by_cases hc : m.keys.any (fun p => p.1 == k)
    · rw [if_pos hc] at hp
      obtain ⟨q, hq, rfl⟩ := List.mem_map.mp hp
      have hq2 := hkb q hq
      by_cases hqk : (q.1 == k) = true
      · simp [hqk]
      · simp [hqk]
        omega
    · rw [if_neg hc] at hp
      rcases List.mem_append.mp hp with hq | hq
      · have := hkb p hq
        omega
      · simp only [List.mem_singleton] at hq
        subst hq
        exact Nat.lt_succ_self _
  · intro p hp
    rcases List.mem_append.mp hp with hq | hq
    · have := hib p hq
      omega
    · obtain ⟨t, _, rfl⟩ := List.mem_map.mp hq
      simp
  · unfold hmInsert
    by_cases hc : m.keys.any (fun p => p.1 == k)
    · rw [if_pos hc, List.map_map]
      have heq : List.map
          (Prod.fst ∘ fun p => if p.1 == k then (k, m.data.length) else p)
          m.keys = List.map Prod.fst m.keys := by
        apply List.map_congr_left
        intro p _
        by_cases hq : p.1 = k
        · simp [hq]
        · simp [hq]
      rw [heq]
      exact hnf
    · rw [if_neg hc, List.map_append]
      have hc' : ∀ p ∈ m.keys, p.1 ≠ k := by
        rw [Bool.not_eq_true, List.any_eq_false] at hc
        intro p hp
        simpa using hc p hp
      have hk : k ∉ List.map Prod.fst m.keys := by
        intro hk
        obtain ⟨p, hp, hpk⟩ := List.mem_map.mp hk
        exact hc' p hp hpk
      rw [List.nodup_append]
      refine ⟨hnf, List.nodup_singleton _, ?_⟩
      intro a ha hb
      simp at hb
      subst hb
      exact hk ha
  · unfold hmInsert
    by_cases hc : m.keys.any (fun p => p.1 == k)
    · rw [if_pos hc, List.map_map]
      apply List.Nodup.map_on _ hknd
      intro x hx y hy hxy
      simp only [Function.comp_apply] at hxy
      by_cases hxk : (x.1 == k) = true <;> by_cases hyk : (y.1 == k) = true
      · exact List.inj_on_of_nodup_map hnf hx hy
          ((eq_of_beq hxk).trans (eq_of_beq hyk).symm)
      · rw [if_pos hxk, if_neg hyk] at hxy
        have := hkb y hy
        simp at hxy
        omega
      · rw [if_neg hxk, if_pos hyk] at hxy
        have := hkb x hx
        simp at hxy
        omega
      · rw [if_neg hxk, if_neg hyk] at hxy
        exact List.inj_on_of_nodup_map hns hx hy hxy
    · rw [if_neg hc, List.map_append]
      have hlen : m.data.length ∉ List.map Prod.snd m.keys := by
        intro hm
        obtain ⟨p, hp, hpl⟩ := List.mem_map.mp hm
        have := hkb p hp
        omega
      rw [List.nodup_append]
      refine ⟨hns, List.nodup_singleton _, ?_⟩
      intro a ha hb
      simp at hb
      subst hb
      exact hlen ha

/-- Explicit form of `remove` on a present key. -/
theorem KeywordMap.remove_eq_of_get (m : KeywordMap V) (k : List Nat)
    (index : Nat) (hg : hmGet m.keys k = some index) :
    m.remove k = (m.data[index]?,
      ⟨m.data.eraseIdx index,
       (hmErase m.keys k).map (fun p => if p.2 > index then (p.1, p.2 - 1) else p),
       (m.keyword_index.filter (fun p => p.2 != index)).map
         (fun p => if p.2 > index then (p.1, p.2 - 1) else p)⟩) := by
  unfold KeywordMap.remove
  rw [hg]

/-- In a position-distinct exact-key index, an entry of `hmErase m k` never
holds the position of the removed entry for `k`. -/
theorem mem_hmErase_snd_ne {m : List (List Nat × Nat)} {k : List Nat}
    {index : Nat} (hns : (m.map Prod.snd).Nodup) (hmem : (k, index) ∈ m)
    {p : List Nat × Nat} (hp : p ∈ hmErase m k) : p.2 ≠ index := by
  obtain ⟨hpm, hpk⟩ := List.mem_filter.mp hp
  intro hpe
  have : p = (k, index) :=
    List.inj_on_of_nodup_map hns hpm hmem hpe
  rw [this] at hpk
  simp at hpk

/-- `remove` preserves the container invariant. -/
theorem KeywordMap.inv_remove (m : KeywordMap V) (k : List Nat)
    (h : m.Inv) : (m.remove k).2.Inv := by
  obtain ⟨hkb, hib, hnf, hns⟩ := h
  have hknd : m.keys.Nodup := List.Nodup.of_map _ hnf
  cases hg : hmGet m.keys k with
  | none =>
    unfold KeywordMap.remove
    rw [hg]
    exact ⟨hkb, hib, hnf, hns⟩
  | some index =>
    rw [KeywordMap.remove_eq_of_get m k index hg]
    have hmem : (k, index) ∈ m.keys := hmGet_mem hg
    have hilt : index < m.data.length := hkb (k, index) hmem
    have hdl : (m.data.eraseIdx index).length = m.data.length - 1 := by
      rw [List.length_eraseIdx]
      simp [hilt]
    refine ⟨?_, ?_, ?_, ?_⟩
    · intro p hp
      obtain ⟨q, hq, rfl⟩ := List.mem_map.mp hp
      have hq2 : q.2 < m.data.length := hkb q (List.mem_filter.mp hq).1
      have hqne : q.2 ≠ index := mem_hmErase_snd_ne hns hmem hq
      rw [hdl]
      by_cases hgt : q.2 > index
      · simp [hgt]
        omega
      · simp [hgt]
        omega
    · intro p hp
      obtain ⟨q, hq, rfl⟩ := List.mem_map.mp hp
      obtain ⟨hqm, hqne'⟩ := List.mem_filter.mp hq
      have hq2 : q.2 < m.data.length := hib q hqm
      have hqne : q.2 ≠ index := by simpa using hqne'
      rw [hdl]
      by_cases hgt : q.2 > index
      · simp [hgt]
        omega
      · simp [hgt]
        omega
    · rw [List.map_map]
      have heq : List.map
          (Prod.fst ∘ fun p => if p.2 > index then (p.1, p.2 - 1) else p)
          (hmErase m.keys k) = List.map Prod.fst (hmErase m.keys k) := by
        apply List.map_congr_left
        intro p _
        by_cases hgt : p.2 > index <;> simp [hgt]
      rw [heq]
      exact ((List.filter_sublist m.keys).map Prod.fst).nodup hnf
    · rw [List.map_map]
      have hnd0 : (hmErase m.keys k).Nodup := (List.filter_sublist m.keys).nodup hknd
      apply List.Nodup.map_on _ hnd0
      intro x hx y hy hxy
      have hxm : x ∈ m.keys := (List.mem_filter.mp hx).1
      have hym : y ∈ m.keys := (List.mem_filter.mp hy).1
      have hxne : x.2 ≠ index := mem_hmErase_snd_ne hns hmem hx
      have hyne : y.2 ≠ index := mem_hmErase_snd_ne hns hmem hy
      have hxb : x.2 < m.data.length := hkb x hxm
      have hyb : y.2 < m.data.length := hkb y hym
      have hsnd : x.2 = y.2 := by
        by_cases hgx : x.2 > index <;> by_cases hgy : y.2 > index <;>
          simp [hgx, hgy] at hxy <;> omega
      exact List.inj_on_of_nodup_map hns hxm hym hsnd

/-- The empty container satisfies the invariant. -/
theorem KeywordMap.inv_new : (KeywordMap.new (V := V)).Inv := by
  unfold KeywordMap.Inv KeywordMap.new
  simp

/-- The invariant is preserved by every sequence of operations. -/
theorem KeywordMap.inv_execOps (ops : List (Op V)) :
    ∀ m : KeywordMap V, m.Inv → (execOps m ops).Inv := by
  induction ops with
  | nil => intro m h; exact h
  | cons op ops ih =>
    intro m h
    cases op with
    | ins k v => exact ih _ (m.inv_insert k v h)
    | rem k => exact ih _ (m.inv_remove k h)

/-- Under the invariant, every match produced by `find_by_partial_keyword`
carries a value actually read from the value store (the indexing is in
bounds). -/
theorem KeywordMap.find_isSome_of_inv (m : KeywordMap V) (h : m.Inv)
    (q : List Nat) (x : Match (Option V))
    (hx : x ∈ m.find_by_partial_keyword q) : (Match.into_inner x).isSome := by
  obtain ⟨hkb, hib, _, _⟩ := h
  unfold KeywordMap.find_by_partial_keyword at hx
  rcases List.mem_append.mp hx with hx | hx
  · obtain ⟨i, hi, rfl⟩ := List.mem_map.mp hx
    have hg : hmGet m.keys q = some i := by
      cases hge : hmGet m.keys q <;> rw [hge] at hi
      · simp at hi
      · simp at hi
        simp [hi]
    have hb : i < m.data.length := hkb (q, i) (hmGet_mem hg)
    simp [Match.into_inner, List.getElem?_eq_getElem hb]
  · obtain ⟨i, hi, rfl⟩ := List.mem_map.mp hx
    obtain ⟨p, hp, hpi⟩ := List.mem_filterMap.mp hi
    have hpm : p ∈ m.keyword_index := (List.mem_filter.mp hp).1
    have hie : i = p.2 := by
      cases hge : hmGet m.keys q <;> rw [hge] at hpi
      · simpa using hpi.symm
      · rename_i e
        by_cases he : p.2 = e
        · simp [he] at hpi
        · simp [he] at hpi
          exact hpi.symm
    have hb : i < m.data.length := hie ▸ hib p hpm
    simp [Match.into_inner, List.getElem?_eq_getElem hb]

/-- Under the invariant, `get` succeeds exactly when the key is present in
the exact-key index (the value-store read never fails). -/
theorem KeywordMap.get_isSome_of_inv (m : KeywordMap V) (h : m.Inv)
    (k : List Nat) : (m.get k).isSome = (hmGet m.keys k).isSome := by
  cases hg : hmGet m.keys k with
  | none => simp [KeywordMap.get, hg]
  | some i =>
    have hb : i < m.data.length := h.1 (k, i) (hmGet_mem hg)
    simp [KeywordMap.get, hg, List.getElem?_eq_getElem hb]

/-- C8: after every sequence of `insert` and `remove` operations starting
from `new()`, every position stored in the exact-key index and in the
keyword index is strictly less than the length of the value store; hence
the value-store indexing performed by `find_by_partial_keyword` always
reads an actual value and `get` succeeds exactly on present keys. -/
theorem positions_in_bounds_after_execOps (ops : List (Op V)) :
    (∀ p ∈ (execOps KeywordMap.new ops).keys,
      p.2 < (execOps KeywordMap.new ops).data.length) ∧
    (∀ p ∈ (execOps KeywordMap.new ops).keyword_index,
      p.2 < (execOps KeywordMap.new ops).data.length) ∧
    (∀ (q : List Nat) (x : Match (Option V)),
      x ∈ (execOps KeywordMap.new ops).find_by_partial_keyword q →
        (Match.into_inner x).isSome) ∧
    (∀ k : List Nat, ((execOps KeywordMap.new ops).get k).isSome =
      (hmGet (execOps KeywordMap.new ops).keys k).isSome) := by
  have hinv := KeywordMap.inv_execOps ops KeywordMap.new KeywordMap.inv_new
  exact ⟨hinv.1, hinv.2.1,
    fun q x hx => (execOps KeywordMap.new ops).find_isSome_of_inv hinv q x hx,
    fun k => (execOps KeywordMap.new ops).get_isSome_of_inv hinv k⟩

/-- Erasing a present key from a duplicate-free exact-key index removes
exactly one entry. -/
theorem length_hmErase_of_mem :
    ∀ {m : List (List Nat × Nat)} {k : List Nat} {i : Nat},
      (m.map Prod.fst).Nodup → (k, i) ∈ m →
      (hmErase m k).length + 1 = m.length := by
  intro m
  induction m with
  | nil =>
    intro k i _ h
    simp at h
  | cons p rest ih =>
    intro k i hnf hmem
    simp only [List.map_cons, List.nodup_cons] at hnf
    by_cases hpk : p.1 = k
    · have hflt : rest.filter (fun p => p.1 != k) = rest := by
        apply List.filter_eq_self.mpr
        intro q hq
        have hqm : q.1 ∈ List.map Prod.fst rest := List.mem_map_of_mem _ hq
        have hqk : q.1 ≠ k := by
          intro hqe
          exact hnf.1 (by rw [hpk, ← hqe]; exact hqm)
        simpa using hqk
      unfold hmErase
      rw [List.filter_cons, if_neg (by simp [hpk]), hflt]
      simp
    · have hmem' : (k, i) ∈ rest := by
        rcases List.mem_cons.mp hmem with he | he
        · exact absurd (congrArg Prod.fst he).symm hpk
        · exact he
      unfold hmErase
      rw [List.filter_cons, if_pos (by simp [hpk])]
      simp only [List.length_cons]
      have := ih hnf.2 hmem'
      unfold hmErase at this
      omega

/-- Along a run whose inserts all use fresh keys, value-store length and
exact-key-index size evolve in lockstep. -/
theorem dataLen_eq_keysLen_aux :
    ∀ (ops : List (Op V)) (m : KeywordMap V), m.Inv →
      m.data.length = m.keys.length → goodRun m ops = true →
      (execOps m ops).data.length = (execOps m ops).keys.length := by
  intro ops
  induction ops with
  | nil =>
    intro m _ he _
    exact he
  | cons op ops ih =>
    intro m hinv he hg
    cases op with
    | ins k v =>
      simp only [goodRun, Bool.and_eq_true] at hg
      obtain ⟨hnone, hg⟩ := hg
      apply ih _ (m.inv_insert k v hinv) _ hg
      have hnone' : hmGet m.keys k = none := by
        cases h : hmGet m.keys k with
        | none => rfl
        | some j => rw [h] at hnone; simp at hnone
      have hany : m.keys.any (fun p => p.1 == k) = false := by
        rw [List.any_eq_false]
        intro p hp
        have := hmGet_eq_none_iff.mp hnone' p hp
        simpa using this
      simp [KeywordMap.insert, hmInsert, hany, he]
    | rem k =>
      simp only [goodRun] at hg
      apply ih _ (m.inv_remove k hinv) _ hg
      cases hgk : hmGet m.keys k with
      | none =>
        unfold KeywordMap.remove
        rw [hgk]
        exact he
      | some index =>
        rw [KeywordMap.remove_eq_of_get m k index hgk]
        have hmem := hmGet_mem hgk
        have hilt : index < m.data.length := hinv.1 _ hmem
        have hone := length_hmErase_of_mem hinv.2.2.1 hmem
        simp only [List.length_map, List.length_eraseIdx]
        rw [if_pos hilt]
        omega

/-- Counterexample to C3 as stated: inserting the key `"a"` twice from the
empty container leaves two values in the value store but a single entry in
the exact-key index. -/
theorem dataLen_ne_keysLen_after_duplicate_insert :
    ¬((execOps (KeywordMap.new (V := Nat))
        [Op.ins [97] 1, Op.ins [97] 2]).data.length =
      (execOps (KeywordMap.new (V := Nat))
        [Op.ins [97] 1, Op.ins [97] 2]).keys.length) := by
  decide

/-- C3 (amended): after every sequence of `insert` and `remove` operations
starting from `new()` in which every `insert` is performed with a key not
present at that moment, the value-store length equals the number of
exact-key-index entries.  (Inserting an already-present key breaks the
equality: the value store grows while the index entry is overwritten.) -/
theorem dataLen_eq_keysLen_of_goodRun (ops : List (Op V))
    (h : goodRun KeywordMap.new ops = true) :
    (execOps KeywordMap.new ops).data.length =
      (execOps KeywordMap.new ops).keys.length :=
  dataLen_eq_keysLen_aux ops KeywordMap.new KeywordMap.inv_new
    (by simp [KeywordMap.new]) h

/-- Witness for the amended C3 at a concrete run. -/
theorem dataLen_eq_keysLen_of_goodRun_witness :
    goodRun (KeywordMap.new (V := Nat))
      [Op.ins [97] 1, Op.ins [98] 2, Op.rem [97]] = true ∧
    (execOps (KeywordMap.new (V := Nat))
        [Op.ins [97] 1, Op.ins [98] 2, Op.rem [97]]).data.length =
      (execOps (KeywordMap.new (V := Nat))
        [Op.ins [97] 1, Op.ins [98] 2, Op.rem [97]]).keys.length :=
  ⟨by decide, dataLen_eq_keysLen_of_goodRun _ (by decide)⟩

/-- After overwriting the entry for `k`, looking up `k` finds the new
position. -/
theorem find?_map_overwrite (k : List Nat) (v : Nat) :
    ∀ m : List (List Nat × Nat), m.any (fun q => q.1 == k) = true →
      (m.map (fun q => if q.1 == k then (k, v) else q)).find?
        (fun q => q.1 == k) = some (k, v) := by
  intro m
  induction m with
  | nil =>
    intro h
    simp at h
  | cons p rest ih =>
    intro h
    rw [List.map_cons]
    by_cases hpk : (p.1 == k) = true
    · rw [if_pos hpk,
        List.find?_cons_of_pos (p := fun (q : List Nat × Nat) => q.1 == k) _ (by simp)]
    · rw [if_neg hpk, List.find?_cons_of_neg (p := fun (q : List Nat × Nat) => q.1 == k) _ hpk]
      apply ih
      simp only [List.any_cons, hpk, Bool.false_or] at h
      exact h

/-- Looking up a key in the exact-key index just after it was appended. -/
theorem find?_append_fresh (k : List Nat) (v : Nat) :
    ∀ m : List (List Nat × Nat), m.any (fun q => q.1 == k) = false →
      (m ++ [(k, v)]).find? (fun q => q.1 == k) = some (k, v) := by
  intro m
  induction m with
  | nil =>
    intro _
    simp
  | cons p rest ih =>
    intro h
    simp only [List.any_cons, Bool.or_eq_false_iff] at h
    rw [List.cons_append,
      List.find?_cons_of_neg (p := fun (q : List Nat × Nat) => q.1 == k) _ (by simp [h.1])]
    exact ih h.2

/-- `HashMap::insert` followed by `HashMap::get` on the same key returns the
newly written position. -/
theorem hmGet_hmInsert_self (m : List (List Nat × Nat)) (k : List Nat)
    (v : Nat) : hmGet (hmInsert m k v) k = some v := by
  unfold hmInsert hmGet
  by_cases hc : m.any (fun q => q.1 == k) = true
  · rw [if_pos hc, find?_map_overwrite k v m hc]
    rfl
  · rw [if_neg hc,
      find?_append_fresh k v m (by rwa [Bool.not_eq_true] at hc)]
    rfl

/-- Overwriting the entry for `k'` does not disturb lookups of a different
key. -/
theorem find?_map_overwrite_ne (k k' : List Nat) (v : Nat) (hne : k ≠ k') :
    ∀ m : List (List Nat × Nat),
      (m.map (fun q => if q.1 == k' then (k', v) else q)).find?
        (fun q => q.1 == k) = m.find? (fun q => q.1 == k) := by
  intro m
  induction m with
  | nil => simp
  | cons p rest ih =>
    rw [List.map_cons]
    by_cases hpk : (p.1 == k') = true
    · have hp1 : p.1 = k' := by simpa using hpk
      have h1 : ¬(((k', v) : List Nat × Nat).1 == k) = true := by
        simp
        exact fun h => hne h.symm
      have h2 : ¬(p.1 == k) = true := by
        simp [hp1]
        exact fun h => hne h.symm
      rw [if_pos hpk, List.find?_cons_of_neg (p := fun (q : List Nat × Nat) => q.1 == k) _ h1,
        List.find?_cons_of_neg (p := fun (q : List Nat × Nat) => q.1 == k) _ h2]
      exact ih
    · rw [if_neg hpk]
      by_cases hk : (p.1 == k) = true
      · rw [List.find?_cons_of_pos (p := fun (q : List Nat × Nat) => q.1 == k) _ hk,
          List.find?_cons_of_pos (p := fun (q : List Nat × Nat) => q.1 == k) _ hk]
      · rw [List.find?_cons_of_neg (p := fun (q : List Nat × Nat) => q.1 == k) _ hk,
          List.find?_cons_of_neg (p := fun (q : List Nat × Nat) => q.1 == k) _ hk]
        exact ih

/-- `HashMap::insert` of one key does not disturb lookups of another. -/
theorem hmGet_hmInsert_ne (m : List (List Nat × Nat)) (k k' : List Nat)
    (v : Nat) (hne : k ≠ k') : hmGet (hmInsert m k' v) k = hmGet m k := by
  unfold hmInsert hmGet
  by_cases hc : m.any (fun q => q.1 == k') = true
  · rw [if_pos hc, find?_map_overwrite_ne k k' v hne m]
  · rw [if_neg hc, List.find?_append]
    have : ([((k', v) : List Nat × Nat)].find? (fun q => q.1 == k)) = none := by
      simp
      exact fun h => hne h.symm
    rw [this]
    simp

/-- `get` right after `insert` of the same key returns the new value. -/
theorem KeywordMap.get_insert_self (m : KeywordMap V) (k : List Nat) (v : V) :
    (m.insert k v).get k = some v := by
  unfold KeywordMap.get KeywordMap.insert
  rw [hmGet_hmInsert_self]
  simp [List.getElem?_concat_length]

/-- `insert` of a different key does not disturb `get` (under in-bounds
positions). -/
theorem KeywordMap.get_insert_other (m : KeywordMap V) (k k' : List Nat)
    (v' : V) (hne : k ≠ k') (hkb : ∀ p ∈ m.keys, p.2 < m.data.length) :
    (m.insert k' v').get k = m.get k := by
  unfold KeywordMap.get KeywordMap.insert
  rw [hmGet_hmInsert_ne m.keys k k' _ hne]
  cases hg : hmGet m.keys k with
  | none => simp
  | some i =>
    have hb : i < m.data.length := hkb _ (hmGet_mem hg)
    simp [List.getElem?_append, hb]

/-- In a duplicate-free exact-key index, lookup returns the position of the
unique entry for the key. -/
theorem hmGet_eq_of_mem_nodup :
    ∀ {l : List (List Nat × Nat)} {k : List Nat} {i : Nat},
      (l.map Prod.fst).Nodup → (k, i) ∈ l → hmGet l k = some i := by
  intro l
  induction l with
  | nil =>
    intro k i _ h
    simp at h
  | cons p rest ih =>
    intro k i hnf hmem
    simp only [List.map_cons, List.nodup_cons] at hnf
    unfold hmGet
    rcases List.mem_cons.mp hmem with he | he
    · rw [← he,
        List.find?_cons_of_pos (p := fun (q : List Nat × Nat) => q.1 == k) _
          (by simp)]
      rfl
    · have hpk : ¬(p.1 == k) = true := by
        simp only [beq_iff_eq]
        intro hpe
        exact hnf.1 (hpe ▸ List.mem_map_of_mem Prod.fst he)
      rw [List.find?_cons_of_neg (p := fun (q : List Nat × Nat) => q.1 == k) _
        hpk]
      exact ih hnf.2 he

/-- Inserting pairs whose keys avoid `k` leaves `get k` unchanged. -/
theorem KeywordMap.get_insertAll_of_not_mem :
    ∀ (ps : List (List Nat × V)) (m : KeywordMap V), m.Inv →
      ∀ k, k ∉ ps.map Prod.fst → (insertAll m ps).get k = m.get k := by
  intro ps
  induction ps with
  | nil =>
    intro m _ k _
    rfl
  | cons q rest ih =>
    intro m hinv k hk
    simp only [List.map_cons, List.mem_cons] at hk
    push_neg at hk
    show (insertAll (m.insert q.1 q.2) rest).get k = m.get k
    rw [ih _ (m.inv_insert q.1 q.2 hinv) k hk.2]
    exact m.get_insert_other k q.1 q.2 hk.1 hinv.1

/-- Each pair of a distinct-key batch insert is retrievable afterwards. -/
theorem KeywordMap.get_insertAll_mem :
    ∀ (ps : List (List Nat × V)) (m : KeywordMap V), m.Inv →
      (ps.map Prod.fst).Nodup →
      ∀ p ∈ ps, (insertAll m ps).get p.1 = some p.2 := by
  intro ps
  induction ps with
  | nil =>
    intro m _ _ p hp
    simp at hp
  | cons q rest ih =>
    intro m hinv hnd p hp
    simp only [List.map_cons, List.nodup_cons] at hnd
    rcases List.mem_cons.mp hp with he | he
    · subst he
      show (insertAll (m.insert p.1 p.2) rest).get p.1 = some p.2
      rw [KeywordMap.get_insertAll_of_not_mem rest _
        (m.inv_insert p.1 p.2 hinv) p.1 hnd.1]
      exact m.get_insert_self p.1 p.2
    · exact ih (m.insert q.1 q.2) (m.inv_insert q.1 q.2 hinv) hnd.2 p he

/-- C5: for any sequence of `insert(k, v)` calls with pairwise distinct keys
starting from `new()`, `get k` returns the inserted value for every inserted
pair, and `get` on a never-inserted key returns the absent indicator. -/
theorem insert_get_round_trip (ps : List (List Nat × V))
    (hnd : (ps.map Prod.fst).Nodup) :
    (∀ p ∈ ps, (insertAll KeywordMap.new ps).get p.1 = some p.2) ∧
    (∀ k : List Nat, k ∉ ps.map Prod.fst →
      (insertAll KeywordMap.new ps).get k = none) := by
  constructor
  · exact KeywordMap.get_insertAll_mem ps KeywordMap.new KeywordMap.inv_new hnd
  · intro k hk
    rw [KeywordMap.get_insertAll_of_not_mem ps KeywordMap.new
      KeywordMap.inv_new k hk]
    rfl

/-- Witness for C5 at a concrete two-element batch. -/
theorem insert_get_round_trip_witness :
    (([([97], (1 : Nat)), ([98], 2)].map Prod.fst).Nodup) ∧
    (insertAll KeywordMap.new [([97], (1 : Nat)), ([98], 2)]).get [97] =
      some 1 ∧
    (insertAll KeywordMap.new [([97], (1 : Nat)), ([98], 2)]).get [99] =
      none := by
  refine ⟨by decide, ?_, ?_⟩
  · exact (insert_get_round_trip _ (by decide)).1 ([97], 1) (by decide)
  · exact (insert_get_round_trip _ (by decide)).2 [99] (by decide)

/-- C6: inserting a key equal to one already present rewrites the exact-key
index mapping to the new value's position (the appended slot), appends the
new value while the old value's slot stays in the value store, leaves every
old keyword-index entry in place (still pointing at the old position) while
appending the new key's tokens, and does not change the number of exact-key
index entries. -/
theorem insert_existing_key_overwrites_index_only (m : KeywordMap V)
    (k : List Nat) (v : V) (i : Nat) (h : hmGet m.keys k = some i) :
    hmGet (m.insert k v).keys k = some m.data.length ∧
    (m.insert k v).data = m.data ++ [v] ∧
    (m.insert k v).keyword_index =
      m.keyword_index ++
        (asciiKeywords k).map (fun kw => (kw, m.data.length)) ∧
    (m.insert k v).keys.length = m.keys.length := by
  refine ⟨?_, rfl, rfl, ?_⟩
  · show hmGet (hmInsert m.keys k m.data.length) k = some m.data.length
    exact hmGet_hmInsert_self _ _ _
  · show (hmInsert m.keys k m.data.length).length = m.keys.length
    unfold hmInsert
    have hany : m.keys.any (fun q => q.1 == k) = true := by
      rw [List.any_eq_true]
      exact ⟨(k, i), hmGet_mem h, by simp⟩
    rw [if_pos hany, List.length_map]

/-- Witness for C6: inserting the key `"a"` twice. -/
theorem insert_existing_key_overwrites_index_only_witness :
    hmGet (KeywordMap.new.insert [97] (1 : Nat)).keys [97] = some 0 ∧
    (hmGet ((KeywordMap.new.insert [97] (1 : Nat)).insert [97] 2).keys [97] =
        some (KeywordMap.new.insert [97] (1 : Nat)).data.length ∧
      ((KeywordMap.new.insert [97] (1 : Nat)).insert [97] 2).data =
        (KeywordMap.new.insert [97] (1 : Nat)).data ++ [2] ∧
      ((KeywordMap.new.insert [97] (1 : Nat)).insert [97] 2).keyword_index =
        (KeywordMap.new.insert [97] (1 : Nat)).keyword_index ++
          (asciiKeywords [97]).map
            (fun kw =>
              (kw, (KeywordMap.new.insert [97] (1 : Nat)).data.length)) ∧
      ((KeywordMap.new.insert [97] (1 : Nat)).insert [97] 2).keys.length =
        (KeywordMap.new.insert [97] (1 : Nat)).keys.length) :=
  ⟨by decide,
    insert_existing_key_overwrites_index_only _ [97] 2 0 (by decide)⟩

/-- Core of C4, for any container satisfying the invariant: removing a
present key returns its stored value, makes it absent, and preserves every
other key's association after the internal renumbering. -/
theorem KeywordMap.remove_present_aux (m : KeywordMap V) (hinv : m.Inv)
    (k : List Nat) (v : V) (h : m.get k = some v) :
    (m.remove k).1 = some v ∧
    (m.remove k).2.get k = none ∧
    (∀ (k' : List Nat) (v' : V), k' ≠ k → m.get k' = some v' →
      (m.remove k).2.get k' = some v') := by
  obtain ⟨hkb, hib, hnf, hns⟩ := hinv
  unfold KeywordMap.get at h
  cases hg : hmGet m.keys k with
  | none =>
    rw [hg] at h
    simp at h
  | some i =>
    rw [hg] at h
    have hv : m.data[i]? = some v := h
    have hrem := KeywordMap.remove_eq_of_get m k i hg
    have hinv' := m.inv_remove k ⟨hkb, hib, hnf, hns⟩
    rw [hrem] at hinv'
    have hilt : i < m.data.length := hkb _ (hmGet_mem hg)
    refine ⟨by rw [hrem]; exact hv, ?_, ?_⟩
    · rw [hrem]
      have hnone : hmGet ((hmErase m.keys k).map
          (fun p => if p.2 > i then (p.1, p.2 - 1) else p)) k = none := by
        rw [hmGet_eq_none_iff]
        intro p hp
        obtain ⟨q, hq, rfl⟩ := List.mem_map.mp hp
        have hq1 : q.1 ≠ k := by simpa using (List.mem_filter.mp hq).2
        by_cases hgt : q.2 > i <;> simp [hgt, hq1]
      unfold KeywordMap.get
      rw [hnone]
      rfl
    · intro k' v' hne hg'
      unfold KeywordMap.get at hg'
      cases hgj : hmGet m.keys k' with
      | none =>
        rw [hgj] at hg'
        simp at hg'
      | some j =>
        rw [hgj] at hg'
        have hv' : m.data[j]? = some v' := hg'
        have hmemj : (k', j) ∈ m.keys := hmGet_mem hgj
        have hji : j ≠ i := by
          intro hj
          apply hne
          have := List.inj_on_of_nodup_map hns hmemj (hmGet_mem hg) hj
          exact congrArg Prod.fst this
        have hjlt : j < m.data.length := hkb _ hmemj
        have hmem0 : (k', j) ∈ hmErase m.keys k :=
          List.mem_filter.mpr ⟨hmemj, by simpa using hne⟩
        rw [hrem]
        unfold KeywordMap.get
        have hment := List.mem_map_of_mem
          (fun p => if p.2 > i then (p.1, p.2 - 1) else p) hmem0
        by_cases hgt : j > i
        · simp only [hgt, if_pos] at hment
          rw [hmGet_eq_of_mem_nodup hinv'.2.2.1 hment]
          show (m.data.eraseIdx i)[j - 1]? = some v'
          rw [List.getElem?_eraseIdx, if_neg (by omega)]
          have hj1 : j - 1 + 1 = j := by omega
          rw [hj1]
          exact hv'
        · simp only [if_neg hgt] at hment
          rw [hmGet_eq_of_mem_nodup hinv'.2.2.1 hment]
          show (m.data.eraseIdx i)[j]? = some v'
          rw [List.getElem?_eraseIdx, if_pos (by omega)]
          exact hv'

/-- C4: for every container built by a run of operations from `new()` (in
particular by inserts with distinct keys), removing a present key `k`
returns the value stored for `k`, makes `get k` absent, and every other
previously resolvable key still resolves via `get` to its original value. -/
theorem remove_present_key_round_trip (ops : List (Op V)) (k : List Nat)
    (v : V) (h : (execOps (KeywordMap.new (V := V)) ops).get k = some v) :
    ((execOps KeywordMap.new ops).remove k).1 = some v ∧
    ((execOps KeywordMap.new ops).remove k).2.get k = none ∧
    (∀ (k' : List Nat) (v' : V), k' ≠ k →
      (execOps KeywordMap.new ops).get k' = some v' →
      ((execOps KeywordMap.new ops).remove k).2.get k' = some v') :=
  (execOps KeywordMap.new ops).remove_present_aux
    (KeywordMap.inv_execOps ops KeywordMap.new KeywordMap.inv_new) k v h

/-- Witness for C4 at a concrete two-insert run. -/
theorem remove_present_key_round_trip_witness :
    (execOps (KeywordMap.new (V := Nat))
      [Op.ins [97] 1, Op.ins [98] 2]).get [97] = some 1 ∧
    ((execOps (KeywordMap.new (V := Nat))
      [Op.ins [97] 1, Op.ins [98] 2]).remove [97]).1 = some 1 ∧
    ((execOps (KeywordMap.new (V := Nat))
      [Op.ins [97] 1, Op.ins [98] 2]).remove [97]).2.get [97] = none ∧
    ((execOps (KeywordMap.new (V := Nat))
      [Op.ins [97] 1, Op.ins [98] 2]).remove [97]).2.get [98] = some 2 := by
  have h := remove_present_key_round_trip [Op.ins [97] 1, Op.ins [98] 2]
    [97] (1 : Nat) (by decide)
  exact ⟨by decide, h.1, h.2.1, h.2.2 [98] 2 (by decide) (by decide)⟩

/-- C10: with the empty query, every keyword-index token byte-starts-with
the query, so `find_by_partial_keyword` emits one `Prefix` match per
keyword-index entry in insertion order — except, when the empty string is
itself a stored key, the entries at the exact match's position, with the
`Exact` match emitted first; the result length is the keyword-index length
(respectively one plus the number of unsuppressed entries). -/
theorem find_empty_query_spec (m : KeywordMap V) :
    (hmGet m.keys [] = none →
      m.find_by_partial_keyword [] =
        m.keyword_index.map (fun p => Match.Pref (m.data[p.2]?)) ∧
      (m.find_by_partial_keyword []).length = m.keyword_index.length) ∧
    (∀ i, hmGet m.keys [] = some i →
      m.find_by_partial_keyword [] =
        Match.Exact (m.data[i]?) ::
          (m.keyword_index.filter (fun p => p.2 != i)).map
            (fun p => Match.Pref (m.data[p.2]?)) ∧
      (m.find_by_partial_keyword []).length =
        1 + (m.keyword_index.filter (fun p => p.2 != i)).length) := by
  constructor
  · intro h
    have he : m.find_by_partial_keyword [] =
        m.keyword_index.map (fun p => Match.Pref (m.data[p.2]?)) := by
      unfold KeywordMap.find_by_partial_keyword
      rw [h]
      simp only [Option.toList_none, List.map_nil, List.nil_append]
      have hfil : List.filter (fun p => List.isPrefixOf ([] : List Nat) p.1)
          m.keyword_index = m.keyword_index :=
        List.filter_eq_self.mpr (fun a _ => by simp)
      rw [hfil]
      induction m.keyword_index with
      | nil => rfl
      | cons p ki ih =>
        simp only [List.filterMap_cons, List.map_cons]
        rw [ih]
    exact ⟨he, by rw [he]; simp⟩
  · intro i h
    have he : m.find_by_partial_keyword [] =
        Match.Exact (m.data[i]?) ::
          (m.keyword_index.filter (fun p => p.2 != i)).map
            (fun p => Match.Pref (m.data[p.2]?)) := by
      unfold KeywordMap.find_by_partial_keyword
      rw [h]
      simp only [Option.toList_some, List.map_cons, List.map_nil,
        List.singleton_append, List.cons.injEq, true_and]
      have hfil : List.filter (fun p => List.isPrefixOf ([] : List Nat) p.1)
          m.keyword_index = m.keyword_index :=
        List.filter_eq_self.mpr (fun a _ => by simp)
      rw [hfil]
      induction m.keyword_index with
      | nil => rfl
      | cons p ki ih =>
        by_cases hpi : p.2 = i
        · simp only [List.filterMap_cons, List.filter_cons, hpi, if_pos rfl]
          simp only [bne_self_eq_false, Bool.false_eq_true, if_false]
          exact ih
        · simp only [List.filterMap_cons, List.filter_cons, if_neg hpi]
          have hb : (p.2 != i) = true := by simpa using hpi
          simp only [hb, if_true, List.map_cons]
          rw [ih]
    refine ⟨he, by rw [he]; simp; omega⟩

/-- Witness for C10: one container without the empty key, one with it. -/
theorem find_empty_query_spec_witness :
    hmGet (KeywordMap.new.insert [97, 98] (1 : Nat)).keys [] = none ∧
    (KeywordMap.new.insert [97, 98] (1 : Nat)).find_by_partial_keyword [] =
      (KeywordMap.new.insert [97, 98] (1 : Nat)).keyword_index.map
        (fun p =>
          Match.Pref ((KeywordMap.new.insert [97, 98] (1 : Nat)).data[p.2]?)) ∧
    hmGet (KeywordMap.new.insert [] (5 : Nat)).keys [] = some 0 ∧
    (KeywordMap.new.insert [] (5 : Nat)).find_by_partial_keyword [] =
      Match.Exact ((KeywordMap.new.insert [] (5 : Nat)).data[0]?) ::
        ((KeywordMap.new.insert [] (5 : Nat)).keyword_index.filter
          (fun p => p.2 != 0)).map
          (fun p =>
            Match.Pref ((KeywordMap.new.insert [] (5 : Nat)).data[p.2]?)) :=
  ⟨by decide, ((find_empty_query_spec _).1 (by decide)).1, by decide,
    ((find_empty_query_spec _).2 0 (by decide)).1⟩
